import Mathlib

/-!
Picture identifier extraction (get-pictures-id)

A shallow embedding of `main.go`: the recursive record traversal
(`traverseEntry`), the embedded-markup extractor (`parseHtmlBody`), the
paginated scan loop of `process`, and the list construction of `writeResults`.

The Go program accumulates identifiers in the package-level set
`pictures : map[string]struct{}`.  Here the set is threaded explicitly as a
`Finset String`.  A Go `map[string]interface{}` is an association list whose
list order is the order in which `range` visits the entries.
-/

namespace GetPicturesId

/-- Dynamic values held by an `interface{}` after decoding: `nil`, `string`,
a number, `bool`, `map[string]interface{}` and `[]interface{}`.  The traversal
tells values apart by type assertion only, so every other dynamic type (a byte
slice, a typed slice decoded from a set attribute) behaves as `num` and `bool`
do: none of the assertions of `traverseEntry` matches it. -/
inductive Value where
  | null : Value
  | str (s : String) : Value
  | num (n : Int) : Value
  | bool (b : Bool) : Value
  | obj (fields : List (String × Value)) : Value
  | arr (items : List Value) : Value

/-- A decoded record, `map[string]interface{}`. -/
abbrev Entry := List (String × Value)

/-- The accumulator `pictures`, a set of identifiers. -/
abbrev Pictures := Finset String

/-- The two library calls used by `parseHtmlBody`, taken as parameters.
`selectScripts html` is `goquery.NewDocumentFromReader` followed by
`Find("script[type=\"application/json\"]")` and `Text()` on each match, in
document order (`none` when the document fails to load);
`jsonUnmarshal text` is `json.Unmarshal` into a `map[string]interface{}`
(`none` when it returns an error). -/
structure Env where
  selectScripts : String → Option (List String)
  jsonUnmarshal : String → Option Entry

/-- The map index expression `m[k]`: the value stored under `k`, `nil` when absent. -/
def index (m : Entry) (k : String) : Value :=
  match m.lookup k with
  | some v => v
  | none => Value.null

/-- The body of the callback passed to `Each` in `parseHtmlBody`
(lines 141-154). -/
def eachScript (env : Env) (pictures : Pictures) (text : String) : Pictures :=
  match env.jsonUnmarshal text with
  | none => pictures
  | some data =>
    match index data "type" with
    | Value.str dataType =>
      if dataType = "PICTURE" then
        match index data "picture" with
        | Value.obj picture =>
          match index picture "id" with
          | Value.str id => insert id pictures
          | _ => pictures
        | _ => pictures
      else pictures
    | _ => pictures

/-- Embedding of `parseHtmlBody` (lines 133-156). -/
def parseHtmlBody (env : Env) (htmlBody : String) (pictures : Pictures) : Pictures :=
  match env.selectScripts htmlBody with
  | none => pictures
  | some scripts => scripts.foldl (eachScript env) pictures

mutual
/-- Embedding of `traverseEntry` (lines 100-131): the `range` loop over the entries. -/
def traverseEntry (env : Env) : Entry → Pictures → Pictures
  | [], pictures => pictures
  | (key, value) :: rest, pictures =>
    traverseEntry env rest (traverseField env key value pictures)
/-- One iteration of the loop of `traverseEntry` (lines 102-129). -/
def traverseField (env : Env) (key : String) : Value → Pictures → Pictures
  | Value.null, pictures => pictures
  | value, pictures =>
    if key = "htmlBody" then
      match value with
      | Value.str htmlBody => parseHtmlBody env htmlBody pictures
      | _ => pictures
    else if key = "darkModeLogo" ∨ key = "lightModeLogo" ∨ key = "picture" then
      match value with
      | Value.obj pictureMap =>
        match index pictureMap "id" with
        | Value.str id => insert id pictures
        | _ => pictures
      | _ => pictures
    else
      match value with
      | Value.obj valueMap => traverseEntry env valueMap pictures
      | Value.arr valueArray => traverseArray env valueArray pictures
      | _ => pictures
/-- The inner loop over `valueArray` (lines 123-127). -/
def traverseArray (env : Env) : List Value → Pictures → Pictures
  | [], pictures => pictures
  | item :: rest, pictures =>
    match item with
    | Value.obj itemMap => traverseArray env rest (traverseEntry env itemMap pictures)
    | _ => traverseArray env rest pictures
end


/-- The consumer loop of `process` (lines 95-97): every record received on
`resultCh` is traversed, in order of arrival. -/
def consume (env : Env) (received : List Entry) (pictures : Pictures) : Pictures :=
  received.foldl (fun acc item => traverseEntry env item acc) pictures

/-- The list built by `writeResults` (lines 159-162): starting from the empty
list, each key yielded by `range pictures` is appended.  `visit` is the order
in which `range` yields the keys. -/
def writeResults (visit : List String) : List String :=
  visit.foldl (fun pictureList pic => pictureList ++ [pic]) []

/-- An order in which `range` may yield the keys of the set `m`: every key
exactly once. -/
def RangeOrder (m : Pictures) (visit : List String) : Prop :=
  visit.Nodup ∧ ∀ x, x ∈ visit ↔ x ∈ m

/-! ## The scan loop of `process` -/

/-- The fields of `dynamodb.ScanOutput` read by `process`. -/
structure ScanOutput (κ ι : Type) where
  items : List ι
  lastEvaluatedKey : Option κ

/-- State of the scan goroutine.  `scannedItems` is the variable of line 58;
`calls` records the `ExclusiveStartKey` of every `Scan` call made so far and
`dispatched` the items for which a decoding goroutine was started (line 75),
both oldest first. -/
structure ScanState (κ ι : Type) where
  calls : List (Option κ)
  scannedItems : Nat
  dispatched : List ι

/-- The state before the first iteration. -/
def ScanState.init (κ ι : Type) : ScanState κ ι :=
  { calls := [], scannedItems := 0, dispatched := [] }

/-- The `for` loop of lines 60-90.  `scan` is `client.Scan` acting on a store
of type `σ`; an error ends the run (`log.Fatal`).  The loop has no bound of its
own, so the embedding takes fuel and returns `none` when it runs out. -/
def scanLoop {σ κ ι ε : Type} (scan : σ → Option κ → Except ε (ScanOutput κ ι) × σ) :
    Nat → σ → Option κ → ScanState κ ι → Option (Except ε (ScanState κ ι))
  | 0, _, _, _ => none
  | fuel + 1, store, lastKey, st =>
    match scan store lastKey with
    | (Except.error err, _) => some (Except.error err)
    | (Except.ok result, store') =>
      let st' : ScanState κ ι :=
        { calls := st.calls ++ [lastKey]
          scannedItems := st.scannedItems + result.items.length
          dispatched := st.dispatched ++ result.items }
      match result.lastEvaluatedKey with
      | none => some (Except.ok st')
      | some key => scanLoop scan fuel store' (some key) st'

/-- The source answers the protocol with exactly the pages `pages`: asked with
`tok` in state `store` it returns the first page, asked next with that page's
token it returns the second, and so on; every page but the last carries a
token and the last carries none. -/
inductive Serves {σ κ ι ε : Type} (scan : σ → Option κ → Except ε (ScanOutput κ ι) × σ) :
    σ → Option κ → List (ScanOutput κ ι) → Prop
  | last {store store' : σ} {tok : Option κ} {page : ScanOutput κ ι} :
      scan store tok = (Except.ok page, store') → page.lastEvaluatedKey = none →
      Serves scan store tok [page]
  | more {store store' : σ} {tok : Option κ} {page : ScanOutput κ ι} {key : κ}
      {pages : List (ScanOutput κ ι)} :
      scan store tok = (Except.ok page, store') → page.lastEvaluatedKey = some key →
      Serves scan store' (some key) pages → Serves scan store tok (page :: pages)

/-- A source that plays back a fixed list of pages, one per call, whatever
token it is given; once the list is exhausted every call fails. -/
def scriptedScan {κ ι : Type} (script : List (ScanOutput κ ι)) (_tok : Option κ) :
    Except String (ScanOutput κ ι) × List (ScanOutput κ ι) :=
  match script with
  | [] => (Except.error "scan failed", [])
  | page :: rest => (Except.ok page, rest)

/-! ## Lock discipline

The same code with its effects on `mu` and `pictures` recorded as a trace. -/

/-- Effects of the traversal on the mutex and on the shared set. -/
inductive Event where
  | lock : Event
  | unlock : Event
  | store (id : String) : Event
  deriving DecidableEq

/-- Effects of the `Each` callback of `parseHtmlBody` (lines 141-154). -/
def eachScriptEvents (env : Env) (text : String) : List Event :=
  match env.jsonUnmarshal text with
  | none => []
  | some data =>
    match index data "type" with
    | Value.str dataType =>
      if dataType = "PICTURE" then
        match index data "picture" with
        | Value.obj picture =>
          match index picture "id" with
          | Value.str id => [Event.store id]
          | _ => []
        | _ => []
      else []
    | _ => []

/-- Effects of `parseHtmlBody` (lines 133-156). -/
def parseHtmlBodyEvents (env : Env) (htmlBody : String) : List Event :=
  match env.selectScripts htmlBody with
  | none => []
  | some scripts => scripts.flatMap (eachScriptEvents env)

mutual
/-- Effects of `traverseEntry` (lines 100-131). -/
def traverseEntryEvents (env : Env) : Entry → List Event
  | [] => []
  | (key, value) :: rest => traverseFieldEvents env key value ++ traverseEntryEvents env rest
/-- Effects of one iteration of the loop of `traverseEntry` (lines 102-129). -/
def traverseFieldEvents (env : Env) (key : String) : Value → List Event
  | Value.null => []
  | value =>
    if key = "htmlBody" then
      match value with
      | Value.str htmlBody => parseHtmlBodyEvents env htmlBody
      | _ => []
    else if key = "darkModeLogo" ∨ key = "lightModeLogo" ∨ key = "picture" then
      match value with
      | Value.obj pictureMap =>
        match index pictureMap "id" with
        | Value.str id => [Event.lock, Event.store id, Event.unlock]
        | _ => []
      | _ => []
    else
      match value with
      | Value.obj valueMap => traverseEntryEvents env valueMap
      | Value.arr valueArray => traverseArrayEvents env valueArray
      | _ => []
/-- Effects of the inner loop over `valueArray` (lines 123-127). -/
def traverseArrayEvents (env : Env) : List Value → List Event
  | [] => []
  | item :: rest =>
    match item with
    | Value.obj itemMap => traverseEntryEvents env itemMap ++ traverseArrayEvents env rest
    | _ => traverseArrayEvents env rest
end

/-- The effect of one event on the set `pictures`. -/
def applyEvent (pictures : Pictures) : Event → Pictures
  | Event.store id => insert id pictures
  | _ => pictures

/-- The set `pictures` after a trace. -/
def replay (trace : List Event) (pictures : Pictures) : Pictures :=
  trace.foldl applyEvent pictures

/-- The identifiers stored while the mutex is not held; `held` tells whether
the mutex is held at the start of the trace. -/
def unguardedStores : Bool → List Event → List String
  | _, [] => []
  | _, Event.lock :: rest => unguardedStores true rest
  | _, Event.unlock :: rest => unguardedStores false rest
  | held, Event.store id :: rest =>
    if held then unguardedStores held rest else id :: unguardedStores held rest

/-! ## Vocabulary of the specification -/

/-- The keys with a `case` of their own in the `switch` of `traverseEntry`
that denote a picture reference. -/
def IsPictureKey (k : String) : Prop :=
  k = "picture" ∨ k = "lightModeLogo" ∨ k = "darkModeLogo"

/-- The keys handled by the `default` branch of the `switch`. -/
def IsDefaultKey (k : String) : Prop :=
  k ≠ "htmlBody" ∧ k ≠ "picture" ∧ k ≠ "lightModeLogo" ∧ k ≠ "darkModeLogo"

instance (k : String) : Decidable (IsPictureKey k) := by
  unfold IsPictureKey; infer_instance

instance (k : String) : Decidable (IsDefaultKey k) := by
  unfold IsDefaultKey; infer_instance

/-- The type assertion `item.(map[string]interface{})`. -/
def asMap : Value → Option Entry
  | Value.obj m => some m
  | _ => none

/-- The mapping `m` sits under key `k` in a mapping reached from `root` through
a chain of mapping-valued fields, whatever the keys of the chain. -/
inductive Reaches : Entry → String → Entry → Prop
  | here {root : Entry} {k : String} {m : Entry} :
      (k, Value.obj m) ∈ root → Reaches root k m
  | step {root child : Entry} {k' k : String} {m : Entry} :
      (k', Value.obj child) ∈ root → Reaches child k m → Reaches root k m

/-- As `Reaches`, every field of the chain being one that the `switch` of
`traverseEntry` sends to its `default` branch. -/
inductive ReachesByDefault : Entry → String → Entry → Prop
  | here {root : Entry} {k : String} {m : Entry} :
      (k, Value.obj m) ∈ root → ReachesByDefault root k m
  | step {root child : Entry} {k' k : String} {m : Entry} :
      (k', Value.obj child) ∈ root → IsDefaultKey k' → ReachesByDefault child k m →
      ReachesByDefault root k m

/-- The identifier a parsed payload contributes, in the words of the
specification: a string field `type` equal to `"PICTURE"` and a mapping field
`picture` containing a string `id`. -/
def specPictureId (payload : Entry) : Option String :=
  match payload.lookup "type", payload.lookup "picture" with
  | some (Value.str t), some (Value.obj p) =>
    if t = "PICTURE" then
      match p.lookup "id" with
      | some (Value.str id) => some id
      | _ => none
    else none
  | _, _ => none

mutual
/-- Every mapping of the tree has pairwise distinct keys, as a Go map does. -/
def Value.distinctKeys : Value → Bool
  | Value.obj m => decide ((m.map Prod.fst).Nodup) && entryDistinctKeys m
  | Value.arr a => itemsDistinctKeys a
  | _ => true
/-- Every value stored in the entries has distinct keys throughout. -/
def entryDistinctKeys : Entry → Bool
  | [] => true
  | (_, v) :: rest => v.distinctKeys && entryDistinctKeys rest
/-- Every element of the sequence has distinct keys throughout. -/
def itemsDistinctKeys : List Value → Bool
  | [] => true
  | v :: rest => v.distinctKeys && itemsDistinctKeys rest
end

/-- Two trees that hold the same data and differ only in the order in which
the entries of their mappings are listed, at any depth. -/
inductive Reorder : Value → Value → Prop
  | refl (v : Value) : Reorder v v
  | perm {m m' : Entry} : m.Perm m' → Reorder (Value.obj m) (Value.obj m')
  | objCons {k : String} {v v' : Value} {m m' : Entry} :
      Reorder v v' → Reorder (Value.obj m) (Value.obj m') →
      Reorder (Value.obj ((k, v) :: m)) (Value.obj ((k, v') :: m'))
  | arrCons {v v' : Value} {a a' : List Value} :
      Reorder v v' → Reorder (Value.arr a) (Value.arr a') →
      Reorder (Value.arr (v :: a)) (Value.arr (v' :: a'))
  | trans {u v w : Value} : Reorder u v → Reorder v w → Reorder u w

/-- The type assertion `v.(string)`. -/
def strOf : Value → Option String
  | Value.str x => some x
  | _ => none

/-- The keys of a mapping; no keys for any other value. -/
def keysOf : Value → List String
  | Value.obj m => m.map Prod.fst
  | _ => []

/-- The string `id` of a mapping, `pictureMap["id"].(string)`. -/
def idOf : Value → Option String
  | Value.obj m => strOf (index m "id")
  | _ => none

/-- The traversal cannot tell `v` from `v'`: as the value of a field, as an
element of a sequence, as a string, and as a mapping looked up for its `id`;
and `v'` has distinct keys throughout. -/
def SameTraversal (env : Env) (v v' : Value) : Prop :=
  v'.distinctKeys = true
    ∧ (∀ k s, traverseField env k v s = traverseField env k v' s)
    ∧ (∀ s, traverseArray env [v] s = traverseArray env [v'] s)
    ∧ strOf v = strOf v'
    ∧ (keysOf v).Perm (keysOf v')
    ∧ idOf v = idOf v'

/-! ## Sample inputs -/

/-- The record `{"items": [{"items": [{"picture": {"id": X}}]}]}`. -/
def nestedItems (X : String) : Entry :=
  [("items", Value.arr [Value.obj [("items",
    Value.arr [Value.obj [("picture", Value.obj [("id", Value.str X)])]])]])]

/-- The record `{"picture": {"picture": {"id": "X"}}}`. -/
def pictureInPicture : Entry :=
  [("picture", Value.obj [("picture", Value.obj [("id", Value.str "X")])])]

/-- The HTML body of the specification's example, one script block. -/
def sampleHtml : String :=
  "<script type=\"application/json\">\x7b\"type\":\"PICTURE\",\"picture\":\x7b\"id\":\"P1\"\x7d\x7d</script>"

/-- The text of the script block of `sampleHtml`. -/
def sampleScript : String :=
  "\x7b\"type\":\"PICTURE\",\"picture\":\x7b\"id\":\"P1\"\x7d\x7d"

/-- The answers of the two libraries on the sample documents: `sampleHtml` has
one script block, `"two blocks"` stands for a document with a block that is not
JSON followed by the sample block, `"one block"` for that document without the
first block. -/
def sampleEnv : Env where
  selectScripts := fun html =>
    if html = sampleHtml then some [sampleScript]
    else if html = "two blocks" then some ["not json", sampleScript]
    else if html = "one block" then some [sampleScript]
    else some []
  jsonUnmarshal := fun text =>
    if text = sampleScript then
      some [("type", Value.str "PICTURE"), ("picture", Value.obj [("id", Value.str "P1")])]
    else none

/-- Three pages, the first two with a token. -/
def samplePages : List (ScanOutput Nat String) :=
  [ { items := ["a", "b"], lastEvaluatedKey := some 1 },
    { items := ["c"], lastEvaluatedKey := some 2 },
    { items := ["d", "e"], lastEvaluatedKey := none } ]

/-! ## Lemmas -/

theorem eachScript_union (env : Env) (s : Pictures) (t : String) :
    eachScript env s t = s ∪ eachScript env ∅ t := by
  unfold eachScript
  split
  · simp
  · split
    · split
      · split
        · split <;> simp [Finset.insert_eq, Finset.union_comm]
        · simp
      · simp
    · simp

theorem foldl_eachScript_union (env : Env) (ts : List String) (s : Pictures) :
    ts.foldl (eachScript env) s = s ∪ ts.foldl (eachScript env) ∅ := by
  induction ts generalizing s with
  | nil => simp
  | cons t ts ih =>
    simp only [List.foldl_cons]
    rw [ih (eachScript env s t), ih (eachScript env ∅ t), eachScript_union env s t,
      Finset.union_assoc]

theorem parseHtmlBody_union (env : Env) (h : String) (s : Pictures) :
    parseHtmlBody env h s = s ∪ parseHtmlBody env h ∅ := by
  unfold parseHtmlBody
  split
  · simp
  · exact foldl_eachScript_union env _ s

mutual
theorem traverseEntry_union (env : Env) : ∀ (e : Entry) (s : Pictures),
    traverseEntry env e s = s ∪ traverseEntry env e ∅
  | [], s => by simp [traverseEntry]
  | (k, v) :: rest, s => by
    rw [traverseEntry, traverseEntry, traverseEntry_union env rest (traverseField env k v s),
      traverseEntry_union env rest (traverseField env k v ∅), traverseField_union env k v s,
      Finset.union_assoc]
theorem traverseField_union (env : Env) (k : String) : ∀ (v : Value) (s : Pictures),
    traverseField env k v s = s ∪ traverseField env k v ∅
  | Value.null, s => by simp [traverseField]
  | Value.str h, s => by
    simp only [traverseField]
    split
    · exact parseHtmlBody_union env h s
    · split <;> simp
  | Value.num n, s => by
    simp only [traverseField]
    split
    · simp
    · split <;> simp
  | Value.bool b, s => by
    simp only [traverseField]
    split
    · simp
    · split <;> simp
  | Value.obj m, s => by
    simp only [traverseField]
    split
    · simp
    · split
      · split <;> simp [Finset.insert_eq, Finset.union_comm]
      · exact traverseEntry_union env m s
  | Value.arr a, s => by
    simp only [traverseField]
    split
    · simp
    · split
      · simp
      · exact traverseArray_union env a s
theorem traverseArray_union (env : Env) : ∀ (a : List Value) (s : Pictures),
    traverseArray env a s = s ∪ traverseArray env a ∅
  | [], s => by simp [traverseArray]
  | Value.obj m :: rest, s => by
    rw [traverseArray, traverseArray, traverseArray_union env rest (traverseEntry env m s),
      traverseArray_union env rest (traverseEntry env m ∅), traverseEntry_union env m s,
      Finset.union_assoc]
  | Value.null :: rest, s => by
    simp only [traverseArray]; exact traverseArray_union env rest s
  | Value.str _ :: rest, s => by
    simp only [traverseArray]; exact traverseArray_union env rest s
  | Value.num _ :: rest, s => by
    simp only [traverseArray]; exact traverseArray_union env rest s
  | Value.bool _ :: rest, s => by
    simp only [traverseArray]; exact traverseArray_union env rest s
  | Value.arr _ :: rest, s => by
    simp only [traverseArray]; exact traverseArray_union env rest s
end


theorem traverseEntry_single (env : Env) (k : String) (v : Value) (s : Pictures) :
    traverseEntry env [(k, v)] s = traverseField env k v s := by
  simp [traverseEntry]

theorem traverseField_default_arr (env : Env) (k : String) (hk : IsDefaultKey k)
    (a : List Value) (s : Pictures) :
    traverseField env k (Value.arr a) s = traverseArray env a s := by
  obtain ⟨h1, h2, h3, h4⟩ := hk
  simp [traverseField, h1, h2, h3, h4]

theorem traverseField_default_obj (env : Env) (k : String) (hk : IsDefaultKey k)
    (m : Entry) (s : Pictures) :
    traverseField env k (Value.obj m) s = traverseEntry env m s := by
  obtain ⟨h1, h2, h3, h4⟩ := hk
  simp [traverseField, h1, h2, h3, h4]

theorem traverseField_picture_id (env : Env) (k : String) (hk : IsPictureKey k)
    (m : Entry) (id : String) (hid : index m "id" = Value.str id) (s : Pictures) :
    traverseField env k (Value.obj m) s = insert id s := by
  rcases hk with rfl | rfl | rfl <;> simp [traverseField, hid]

theorem traverseArray_eq_foldl (env : Env) (a : List Value) (s : Pictures) :
    traverseArray env a s
      = (a.filterMap asMap).foldl (fun acc m => traverseEntry env m acc) s := by
  induction a generalizing s with
  | nil => simp [traverseArray]
  | cons v rest ih =>
    cases v <;> simp [traverseArray, asMap, ih]

theorem eachScript_parsed (env : Env) (s : Pictures) (t : String) (d : Entry)
    (h : env.jsonUnmarshal t = some d) :
    eachScript env s t = s ∪ (specPictureId d).toFinset := by
  unfold eachScript specPictureId index
  rw [h]
  cases h1 : List.lookup "type" d with
  | none => simp [h1]
  | some v1 =>
    cases v1 with
    | str ty =>
      cases h2 : List.lookup "picture" d with
      | none => by_cases hty : ty = "PICTURE" <;> simp [h1, h2, hty]
      | some v2 =>
        cases v2 with
        | obj p =>
          by_cases hty : ty = "PICTURE"
          · cases h3 : List.lookup "id" p with
            | none => simp [h1, h2, h3, hty]
            | some v3 =>
              cases v3 <;> simp [h1, h2, h3, hty, Finset.insert_eq, Finset.union_comm]
          · simp [h1, h2, hty]
        | _ => by_cases hty : ty = "PICTURE" <;> simp [h1, h2, hty]
    | _ => simp [h1]

theorem eachScript_failed (env : Env) (s : Pictures) (t : String)
    (h : env.jsonUnmarshal t = none) : eachScript env s t = s := by
  unfold eachScript; rw [h]

theorem foldl_eachScript_spec (env : Env) (scripts : List String) (s : Pictures) :
    scripts.foldl (eachScript env) s
      = s ∪ ((scripts.filterMap env.jsonUnmarshal).filterMap specPictureId).toFinset := by
  induction scripts generalizing s with
  | nil => simp
  | cons t ts ih =>
    rw [List.foldl_cons, ih]
    cases h : env.jsonUnmarshal t with
    | none => rw [eachScript_failed env s t h, List.filterMap_cons_none h]
    | some d =>
      rw [eachScript_parsed env s t d h, List.filterMap_cons_some h]
      cases h' : specPictureId d with
      | none => simp [List.filterMap_cons_none h']
      | some id => 
        rw [List.filterMap_cons_some h']
        simp [Finset.union_assoc, Finset.insert_eq]

theorem parseHtmlBody_spec (env : Env) (html : String) (scripts : List String) (s : Pictures)
    (hsel : env.selectScripts html = some scripts) :
    parseHtmlBody env html s
      = s ∪ ((scripts.filterMap env.jsonUnmarshal).filterMap specPictureId).toFinset := by
  unfold parseHtmlBody
  rw [hsel]
  exact foldl_eachScript_spec env scripts s

theorem filterMap_filter_isSome {α β : Type} (f : α → Option β) (l : List α) :
    (l.filter (fun t => (f t).isSome)).filterMap f = l.filterMap f := by
  induction l with
  | nil => rfl
  | cons a l ih =>
    cases h : f a with
    | none => simp [List.filter_cons, h, ih]
    | some b => simp [List.filter_cons, h, ih]

theorem writeResults_eq (visit : List String) : writeResults visit = visit := by
  unfold writeResults
  suffices h : ∀ acc : List String,
      visit.foldl (fun pictureList pic => pictureList ++ [pic]) acc = acc ++ visit by
    simpa using h []
  induction visit with
  | nil => simp
  | cons a l ih => intro acc; simp [ih]

theorem subset_traverseEntry (env : Env) (e : Entry) (s : Pictures) :
    s ⊆ traverseEntry env e s := by
  rw [traverseEntry_union]; exact Finset.subset_union_left

theorem traverseEntry_cons_union (env : Env) (k : String) (v : Value) (rest : Entry)
    (s : Pictures) :
    traverseEntry env ((k, v) :: rest) s
      = s ∪ (traverseField env k v ∅ ∪ traverseEntry env rest ∅) := by
  rw [traverseEntry, traverseEntry_union, traverseField_union, Finset.union_assoc]

theorem field_subset_traverseEntry (env : Env) (k : String) (v : Value) (e : Entry)
    (s : Pictures) (hmem : (k, v) ∈ e) :
    traverseField env k v ∅ ⊆ traverseEntry env e s := by
  induction e with
  | nil => cases hmem
  | cons p rest ih =>
    obtain ⟨k', v'⟩ := p
    rw [traverseEntry_cons_union]
    rcases List.mem_cons.1 hmem with h | h
    · cases h
      exact Finset.subset_union_left.trans Finset.subset_union_right
    · refine (ih h).trans ?_
      rw [traverseEntry_union env rest s]
      intro x hx
      rcases Finset.mem_union.1 hx with hx | hx
      · exact Finset.mem_union_left _ hx
      · exact Finset.mem_union_right _ (Finset.mem_union_right _ hx)

theorem scanLoop_serves {σ κ ι ε : Type}
    (scan : σ → Option κ → Except ε (ScanOutput κ ι) × σ) (store : σ) (tok : Option κ)
    (pages : List (ScanOutput κ ι)) (h : Serves scan store tok pages) :
    ∀ (fuel : Nat) (st : ScanState κ ι), pages.length ≤ fuel →
      scanLoop scan fuel store tok st = some (Except.ok
        { calls := st.calls ++ tok :: pages.dropLast.map (fun p => p.lastEvaluatedKey)
          scannedItems := st.scannedItems + (pages.flatMap (fun p => p.items)).length
          dispatched := st.dispatched ++ pages.flatMap (fun p => p.items) }) := by
  induction h with
  | last hscan hnone =>
    intro fuel st hfuel
    cases fuel with
    | zero => simp at hfuel
    | succ fuel => simp [scanLoop, hscan, hnone]
  | @more store store' tok page key pages hscan hkey hrest ih =>
    intro fuel st hfuel
    cases fuel with
    | zero => simp at hfuel
    | succ fuel =>
      have hlen : pages.length ≤ fuel := by simpa using hfuel
      have hne : pages ≠ [] := by
        cases hrest <;> simp
      simp only [scanLoop, hscan, hkey]
      rw [ih fuel _ hlen]
      simp [List.dropLast_cons_of_ne_nil hne, hkey, Nat.add_assoc]

theorem lookup_eq_some_iff_mem (m : Entry) (hnd : (m.map Prod.fst).Nodup) (k : String)
    (v : Value) : m.lookup k = some v ↔ (k, v) ∈ m := by
  induction m with
  | nil => simp
  | cons p rest ih =>
    obtain ⟨k', v'⟩ := p
    rw [List.map_cons, List.nodup_cons] at hnd
    rw [List.lookup_cons]
    by_cases hk : k = k'
    · subst hk
      simp only [beq_self_eq_true, Option.some.injEq, List.mem_cons, Prod.mk.injEq, true_and]
      constructor
      · intro h; exact Or.inl h.symm
      · rintro (h | h)
        · exact h.symm
        · exact absurd (List.mem_map_of_mem Prod.fst h) hnd.1
    · have hb : (k == k') = false := by simpa using hk
      simp only [hb, List.mem_cons, Prod.mk.injEq, hk, false_and, false_or]
      exact ih hnd.2

theorem lookup_perm (m m' : Entry) (hnd : (m.map Prod.fst).Nodup) (hp : m.Perm m')
    (k : String) : m.lookup k = m'.lookup k := by
  have hnd' : (m'.map Prod.fst).Nodup := (hp.map Prod.fst).nodup_iff.1 hnd
  apply Option.ext
  intro v
  simp only [Option.mem_def]
  rw [lookup_eq_some_iff_mem m hnd, lookup_eq_some_iff_mem m' hnd', hp.mem_iff]

theorem entryDistinctKeys_iff (m : Entry) :
    entryDistinctKeys m = true ↔ ∀ p ∈ m, p.2.distinctKeys = true := by
  induction m with
  | nil => simp [entryDistinctKeys]
  | cons p rest ih =>
    obtain ⟨k, v⟩ := p
    simp [entryDistinctKeys, ih]

theorem traverseField_comm (env : Env) (k1 k2 : String) (v1 v2 : Value) (s : Pictures) :
    traverseField env k2 v2 (traverseField env k1 v1 s)
      = traverseField env k1 v1 (traverseField env k2 v2 s) := by
  rw [traverseField_union env k2 v2, traverseField_union env k1 v1 s,
    traverseField_union env k1 v1 (traverseField env k2 v2 s), traverseField_union env k2 v2 s,
    Finset.union_assoc, Finset.union_assoc,
    Finset.union_comm (traverseField env k1 v1 ∅)]

theorem traverseEntry_perm (env : Env) (m m' : Entry) (hp : m.Perm m') (s : Pictures) :
    traverseEntry env m s = traverseEntry env m' s := by
  induction hp generalizing s with
  | nil => rfl
  | cons p _ ih =>
    obtain ⟨k, v⟩ := p
    simp only [traverseEntry]
    exact ih _
  | swap p q l =>
    obtain ⟨k1, v1⟩ := p
    obtain ⟨k2, v2⟩ := q
    simp only [traverseEntry]
    rw [traverseField_comm]
  | trans _ _ ih1 ih2 => exact (ih1 s).trans (ih2 s)

theorem traverseField_obj_eq (env : Env) (k : String) (m : Entry) (s : Pictures) :
    traverseField env k (Value.obj m) s
      = if k = "htmlBody" then s
        else if k = "darkModeLogo" ∨ k = "lightModeLogo" ∨ k = "picture" then
          match idOf (Value.obj m) with
          | some id => insert id s
          | none => s
        else traverseEntry env m s := by
  simp only [traverseField, idOf]
  split
  · rfl
  · split
    · cases index m "id" <;> simp [strOf]
    · rfl

theorem traverseField_arr_eq (env : Env) (k : String) (a : List Value) (s : Pictures) :
    traverseField env k (Value.arr a) s
      = if k = "htmlBody" then s
        else if k = "darkModeLogo" ∨ k = "lightModeLogo" ∨ k = "picture" then s
        else traverseArray env a s := by
  simp only [traverseField]

theorem traverseArray_cons (env : Env) (v : Value) (a : List Value) (s : Pictures) :
    traverseArray env (v :: a) s = traverseArray env a (traverseArray env [v] s) := by
  cases v <;> simp [traverseArray]

theorem traverseArray_single_obj (env : Env) (m : Entry) (s : Pictures) :
    traverseArray env [Value.obj m] s = traverseEntry env m s := by
  simp [traverseArray]

theorem traverseArray_single_arr (env : Env) (a : List Value) (s : Pictures) :
    traverseArray env [Value.arr a] s = s := by
  simp [traverseArray]

theorem sameTraversal_entries (env : Env) (m m' : Entry)
    (h : SameTraversal env (Value.obj m) (Value.obj m')) (s : Pictures) :
    traverseEntry env m s = traverseEntry env m' s := by
  have := h.2.2.1 s
  simpa [traverseArray_single_obj] using this

theorem sameTraversal_items (env : Env) (a a' : List Value)
    (h : SameTraversal env (Value.arr a) (Value.arr a')) (s : Pictures) :
    traverseArray env a s = traverseArray env a' s := by
  have := h.2.1 "" s
  rw [traverseField_default_arr env "" (by decide), traverseField_default_arr env "" (by decide)]
    at this
  exact this

theorem idOf_cons (k : String) (v : Value) (m : Entry) :
    idOf (Value.obj ((k, v) :: m)) = if k = "id" then strOf v else idOf (Value.obj m) := by
  simp only [idOf, index, List.lookup_cons]
  by_cases hk : k = "id"
  · subst hk; simp
  · have hb : ("id" == k) = false := by
      simp only [beq_eq_false_iff_ne]; exact fun h => hk h.symm
    simp [hb, hk]

theorem sameTraversal_refl (env : Env) (v : Value) (hv : v.distinctKeys = true) :
    SameTraversal env v v :=
  ⟨hv, fun _ _ => rfl, fun _ => rfl, rfl, List.Perm.refl _, rfl⟩

theorem sameTraversal_trans (env : Env) (u v w : Value) (h1 : SameTraversal env u v)
    (h2 : SameTraversal env v w) : SameTraversal env u w :=
  ⟨h2.1, fun k s => (h1.2.1 k s).trans (h2.2.1 k s), fun s => (h1.2.2.1 s).trans (h2.2.2.1 s),
    h1.2.2.2.1.trans h2.2.2.2.1, h1.2.2.2.2.1.trans h2.2.2.2.2.1, h1.2.2.2.2.2.trans h2.2.2.2.2.2⟩

theorem sameTraversal_perm (env : Env) (m m' : Entry) (hp : m.Perm m')
    (hv : (Value.obj m).distinctKeys = true) :
    SameTraversal env (Value.obj m) (Value.obj m') := by
  simp only [Value.distinctKeys, Bool.and_eq_true, decide_eq_true_eq] at hv
  obtain ⟨hnd, hent⟩ := hv
  have hid : idOf (Value.obj m) = idOf (Value.obj m') := by
    simp only [idOf, index, lookup_perm m m' hnd hp "id"]
  refine ⟨?_, ?_, ?_, rfl, hp.map Prod.fst, hid⟩
  · simp only [Value.distinctKeys, Bool.and_eq_true, decide_eq_true_eq]
    refine ⟨(hp.map Prod.fst).nodup_iff.1 hnd, ?_⟩
    rw [entryDistinctKeys_iff] at hent ⊢
    intro p hpm
    exact hent p (hp.mem_iff.2 hpm)
  · intro k s
    rw [traverseField_obj_eq, traverseField_obj_eq, hid, traverseEntry_perm env m m' hp]
  · intro s
    rw [traverseArray_single_obj, traverseArray_single_obj, traverseEntry_perm env m m' hp]

theorem sameTraversal_objCons (env : Env) (k : String) (v v' : Value) (m m' : Entry)
    (hv : SameTraversal env v v') (hm : SameTraversal env (Value.obj m) (Value.obj m'))
    (hk : k ∉ m.map Prod.fst) :
    SameTraversal env (Value.obj ((k, v) :: m)) (Value.obj ((k, v') :: m')) := by
  have hkeys : (m.map Prod.fst).Perm (m'.map Prod.fst) := hm.2.2.2.2.1
  have hid : idOf (Value.obj ((k, v) :: m)) = idOf (Value.obj ((k, v') :: m')) := by
    rw [idOf_cons, idOf_cons, hv.2.2.2.1, hm.2.2.2.2.2]
  have hent : ∀ s, traverseEntry env ((k, v) :: m) s = traverseEntry env ((k, v') :: m') s := by
    intro s
    simp only [traverseEntry]
    rw [hv.2.1 k s, sameTraversal_entries env m m' hm]
  refine ⟨?_, ?_, ?_, rfl, ?_, hid⟩
  · have h' := hm.1
    simp only [Value.distinctKeys, Bool.and_eq_true, decide_eq_true_eq] at h'
    simp only [Value.distinctKeys, entryDistinctKeys, Bool.and_eq_true, decide_eq_true_eq,
      List.map_cons, List.nodup_cons]
    exact ⟨⟨fun hmem => hk (hkeys.mem_iff.2 hmem), h'.1⟩, hv.1, h'.2⟩
  · intro k0 s
    rw [traverseField_obj_eq, traverseField_obj_eq, hid, hent]
  · intro s
    rw [traverseArray_single_obj, traverseArray_single_obj, hent]
  · simpa [keysOf] using hkeys

theorem sameTraversal_arrCons (env : Env) (v v' : Value) (a a' : List Value)
    (hv : SameTraversal env v v') (ha : SameTraversal env (Value.arr a) (Value.arr a')) :
    SameTraversal env (Value.arr (v :: a)) (Value.arr (v' :: a')) := by
  have hitems : ∀ s, traverseArray env (v :: a) s = traverseArray env (v' :: a') s := by
    intro s
    rw [traverseArray_cons, traverseArray_cons env v', hv.2.2.1 s,
      sameTraversal_items env a a' ha]
  refine ⟨?_, ?_, ?_, rfl, List.Perm.refl _, rfl⟩
  · have h' := ha.1
    simp only [Value.distinctKeys] at h'
    simp only [Value.distinctKeys, itemsDistinctKeys, Bool.and_eq_true]
    exact ⟨hv.1, h'⟩
  · intro k s
    rw [traverseField_arr_eq, traverseField_arr_eq, hitems]
  · intro s
    rw [traverseArray_single_arr, traverseArray_single_arr]

theorem reorder_sameTraversal (env : Env) (v v' : Value) (h : Reorder v v') :
    v.distinctKeys = true → SameTraversal env v v' := by
  induction h with
  | refl v => exact sameTraversal_refl env v
  | perm hp => exact sameTraversal_perm env _ _ hp
  | @objCons k v v' m m' _ _ ih1 ih2 =>
    intro hwf
    simp only [Value.distinctKeys, entryDistinctKeys, Bool.and_eq_true, decide_eq_true_eq,
      List.map_cons, List.nodup_cons] at hwf
    apply sameTraversal_objCons env k v v' m m' (ih1 hwf.2.1) _ hwf.1.1
    apply ih2
    simp only [Value.distinctKeys, Bool.and_eq_true, decide_eq_true_eq]
    exact ⟨hwf.1.2, hwf.2.2⟩
  | @arrCons v v' a a' _ _ ih1 ih2 =>
    intro hwf
    simp only [Value.distinctKeys, itemsDistinctKeys, Bool.and_eq_true] at hwf
    apply sameTraversal_arrCons env v v' a a' (ih1 hwf.1)
    apply ih2
    simp only [Value.distinctKeys]
    exact hwf.2
  | trans _ _ ih1 ih2 =>
    intro hwf
    have h1 := ih1 hwf
    exact sameTraversal_trans env _ _ _ h1 (ih2 h1.1)

theorem replay_append (t1 t2 : List Event) (s : Pictures) :
    replay (t1 ++ t2) s = replay t2 (replay t1 s) := by
  simp [replay, List.foldl_append]

theorem replay_eachScriptEvents (env : Env) (text : String) (s : Pictures) :
    replay (eachScriptEvents env text) s = eachScript env s text := by
  unfold eachScriptEvents eachScript
  split
  · rfl
  · split
    · split
      · split
        · split <;> simp [replay, applyEvent]
        · rfl
      · rfl
    · rfl

theorem replay_flatMap_eachScriptEvents (env : Env) (scripts : List String) (s : Pictures) :
    replay (scripts.flatMap (eachScriptEvents env)) s = scripts.foldl (eachScript env) s := by
  induction scripts generalizing s with
  | nil => rfl
  | cons t ts ih =>
    rw [List.flatMap_cons, replay_append, replay_eachScriptEvents, List.foldl_cons]
    exact ih _

theorem replay_parseHtmlBodyEvents (env : Env) (html : String) (s : Pictures) :
    replay (parseHtmlBodyEvents env html) s = parseHtmlBody env html s := by
  unfold parseHtmlBodyEvents parseHtmlBody
  split
  · rfl
  · exact replay_flatMap_eachScriptEvents env _ s

mutual
theorem replay_traverseEntryEvents (env : Env) : ∀ (e : Entry) (s : Pictures),
    replay (traverseEntryEvents env e) s = traverseEntry env e s
  | [], s => by simp [traverseEntryEvents, traverseEntry, replay]
  | (k, v) :: rest, s => by
    rw [traverseEntryEvents, traverseEntry, replay_append, replay_traverseFieldEvents env k v s,
      replay_traverseEntryEvents env rest]
theorem replay_traverseFieldEvents (env : Env) (k : String) : ∀ (v : Value) (s : Pictures),
    replay (traverseFieldEvents env k v) s = traverseField env k v s
  | Value.null, s => by simp [traverseFieldEvents, traverseField, replay]
  | Value.str h, s => by
    simp only [traverseFieldEvents, traverseField]
    split
    · exact replay_parseHtmlBodyEvents env h s
    · split <;> rfl
  | Value.num n, s => by
    simp only [traverseFieldEvents, traverseField]
    split
    · rfl
    · split <;> rfl
  | Value.bool b, s => by
    simp only [traverseFieldEvents, traverseField]
    split
    · rfl
    · split <;> rfl
  | Value.obj m, s => by
    simp only [traverseFieldEvents, traverseField]
    split
    · rfl
    · split
      · split <;> simp [replay, applyEvent]
      · exact replay_traverseEntryEvents env m s
  | Value.arr a, s => by
    simp only [traverseFieldEvents, traverseField]
    split
    · rfl
    · split
      · rfl
      · exact replay_traverseArrayEvents env a s
theorem replay_traverseArrayEvents (env : Env) : ∀ (a : List Value) (s : Pictures),
    replay (traverseArrayEvents env a) s = traverseArray env a s
  | [], s => by simp [traverseArrayEvents, traverseArray, replay]
  | Value.obj m :: rest, s => by
    rw [traverseArrayEvents, traverseArray, replay_append, replay_traverseEntryEvents env m s,
      replay_traverseArrayEvents env rest]
  | Value.null :: rest, s => by
    simp only [traverseArrayEvents, traverseArray]; exact replay_traverseArrayEvents env rest s
  | Value.str _ :: rest, s => by
    simp only [traverseArrayEvents, traverseArray]; exact replay_traverseArrayEvents env rest s
  | Value.num _ :: rest, s => by
    simp only [traverseArrayEvents, traverseArray]; exact replay_traverseArrayEvents env rest s
  | Value.bool _ :: rest, s => by
    simp only [traverseArrayEvents, traverseArray]; exact replay_traverseArrayEvents env rest s
  | Value.arr _ :: rest, s => by
    simp only [traverseArrayEvents, traverseArray]; exact replay_traverseArrayEvents env rest s
end

theorem direct_store_guarded (env : Env) (k : String) (hk : IsPictureKey k) (m : Entry) :
    unguardedStores false (traverseEntryEvents env [(k, Value.obj m)]) = [] := by
  rcases hk with rfl | rfl | rfl <;> simp only [traverseEntryEvents, traverseFieldEvents] <;>
    simp <;> split <;> simp [unguardedStores]

theorem scriptedScan_serves {κ ι : Type} (pages : List (ScanOutput κ ι)) (tok : Option κ)
    (hne : pages ≠ [])
    (htok : ∀ p ∈ pages.dropLast, p.lastEvaluatedKey ≠ none)
    (hlast : (pages.getLast hne).lastEvaluatedKey = none) :
    Serves scriptedScan pages tok pages := by
  induction pages generalizing tok with
  | nil => exact absurd rfl hne
  | cons p rest ih =>
    cases rest with
    | nil => exact Serves.last rfl (by simpa using hlast)
    | cons q rest' =>
      have hp : p.lastEvaluatedKey ≠ none := htok p (by simp)
      obtain ⟨key, hkey⟩ := Option.ne_none_iff_exists'.1 hp
      refine Serves.more rfl hkey (ih (some key) (by simp) ?_ ?_)
      · intro p' hp'
        exact htok p' (by simp [List.dropLast_cons₂, hp'])
      · simpa [List.getLast_cons] using hlast

/-! ## Claims -/

/-- C2 as stated fails: traversing `{"items": [{"items": [{"picture": {"id": "X"}}]}]}`
into the empty set does discover `"X"`. -/
theorem nestedItems_discovered : "X" ∈ traverseEntry sampleEnv (nestedItems "X") ∅ := by
  decide

/-- C2, amended: for every identifier `X`, traversing
`{"items": [{"items": [{"picture": {"id": X}}]}]}` into the empty set yields
exactly `{X}`: a mapping that is an element of a sequence is traversed in
full, sequences in it included. -/
theorem nestedItems_yields_singleton (env : Env) (X : String) :
    traverseEntry env (nestedItems X) ∅ = {X} := by
  simp [nestedItems, traverseEntry, traverseField, traverseArray, index]

/-- C3: under a key of the `default` branch, a sequence is traversed by
traversing each of its mapping elements in turn, the other elements (scalars,
`nil`, nested sequences) contributing nothing; so
`{"items": [[{"picture": {"id": X}}]]}` leaves the set unchanged and
`{"items": [{"picture": {"id": X}}]}` adds `X`. -/
theorem sequence_policy (env : Env) (s : Pictures) (k : String) (items : List Value)
    (h1 : k ≠ "htmlBody") (h2 : k ≠ "picture") (h3 : k ≠ "lightModeLogo")
    (h4 : k ≠ "darkModeLogo") :
    traverseEntry env [(k, Value.arr items)] s
        = (items.filterMap asMap).foldl (fun acc m => traverseEntry env m acc) s
      ∧ ((∀ v ∈ items, asMap v = none) → traverseEntry env [(k, Value.arr items)] s = s)
      ∧ (∀ X : String,
          traverseEntry env
              [("items", Value.arr [Value.arr [Value.obj [("picture",
                Value.obj [("id", Value.str X)])]]])] s = s
          ∧ traverseEntry env
              [("items", Value.arr [Value.obj [("picture",
                Value.obj [("id", Value.str X)])]])] s = insert X s) := by
  have hmain : traverseEntry env [(k, Value.arr items)] s
      = (items.filterMap asMap).foldl (fun acc m => traverseEntry env m acc) s := by
    rw [traverseEntry_single, traverseField_default_arr env k ⟨h1, h2, h3, h4⟩,
      traverseArray_eq_foldl]
  refine ⟨hmain, ?_, ?_⟩
  · intro hnone
    rw [hmain]
    have : items.filterMap asMap = [] := by
      rw [List.filterMap_eq_nil_iff]; exact hnone
    simp [this]
  · intro X
    constructor <;> simp [traverseEntry, traverseField, traverseArray, index]

/-- Witness of C3 on `{"tags": ["a", {"picture": {"id": "X"}}, null]}`. -/
theorem sequence_policy_witness :
    traverseEntry sampleEnv [("tags", Value.arr [Value.str "a",
        Value.obj [("picture", Value.obj [("id", Value.str "X")])], Value.null])] ∅
      = ([Value.str "a", Value.obj [("picture", Value.obj [("id", Value.str "X")])],
          Value.null].filterMap asMap).foldl
          (fun acc m => traverseEntry sampleEnv m acc) ∅ :=
  (sequence_policy sampleEnv ∅ "tags" _ (by decide) (by decide) (by decide) (by decide)).1

/-- C4: a record whose only field is a picture-bearing key with a value that is
not a mapping, or a mapping whose `id` is absent or not a string, leaves the
set unchanged; the traversal is a total function, so it does not fail. -/
theorem type_mismatch_ignored (env : Env) (s : Pictures) (k : String) (v : Value)
    (hk : k = "picture" ∨ k = "lightModeLogo" ∨ k = "darkModeLogo")
    (hv : ∀ m, v = Value.obj m → ∀ id, index m "id" ≠ Value.str id) :
    traverseEntry env [(k, v)] s = s := by
  rw [traverseEntry_single]
  cases v with
  | obj m =>
    have hm := hv m rfl
    have hnone : idOf (Value.obj m) = none := by
      simp only [idOf]
      cases h : index m "id" with
      | str id => exact absurd h (hm id)
      | _ => rfl
    rw [traverseField_obj_eq, hnone]
    rcases hk with rfl | rfl | rfl <;> simp
  | _ => rcases hk with rfl | rfl | rfl <;> simp [traverseField]

/-- Witness of C4 on `{"picture": {"id": 123}}`. -/
theorem type_mismatch_ignored_witness :
    traverseEntry sampleEnv [("picture", Value.obj [("id", Value.num 123)])] {"A"} = {"A"} :=
  type_mismatch_ignored sampleEnv {"A"} "picture" (Value.obj [("id", Value.num 123)])
    (Or.inl rfl) (by
      intro m hm id
      cases hm
      simp [index])

/-- C5: the identifiers `parseHtmlBody` adds are exactly those that the
successfully parsed payloads contribute under the specification's filter (a
string `type` equal to `"PICTURE"` and a mapping `picture` with a string `id`);
a payload `{"type":"OTHER","picture":{"id":X}}` adds nothing and a payload
`{"type":"PICTURE","picture":{"id":X}}` adds `X`. -/
theorem payload_filter (env : Env) (html : String) (scripts : List String)
    (payloads : List Entry) (s : Pictures)
    (hsel : env.selectScripts html = some scripts)
    (hparse : scripts.filterMap env.jsonUnmarshal = payloads) :
    parseHtmlBody env html s = s ∪ (payloads.filterMap specPictureId).toFinset
      ∧ (∀ text X, env.jsonUnmarshal text
            = some [("type", Value.str "OTHER"), ("picture", Value.obj [("id", Value.str X)])] →
          eachScript env s text = s)
      ∧ (∀ text X, env.jsonUnmarshal text
            = some [("type", Value.str "PICTURE"), ("picture", Value.obj [("id", Value.str X)])] →
          eachScript env s text = insert X s) := by
  refine ⟨?_, ?_, ?_⟩
  · rw [← hparse]; exact parseHtmlBody_spec env html scripts s hsel
  · intro text X h
    simp [eachScript, h, index]
  · intro text X h
    have hp : List.lookup "picture"
        [("type", Value.str "PICTURE"), ("picture", Value.obj [("id", Value.str X)])]
        = some (Value.obj [("id", Value.str X)]) := rfl
    simp [eachScript, h, index, hp]

/-- Witness of C5 on the HTML body of the specification's example: the result
is `{"P1"}`. -/
theorem payload_filter_witness : parseHtmlBody sampleEnv sampleHtml ∅ = {"P1"} := by
  have h := (payload_filter sampleEnv sampleHtml [sampleScript]
    [[("type", Value.str "PICTURE"), ("picture", Value.obj [("id", Value.str "P1")])]] ∅
    (by simp [sampleEnv]) (by simp [sampleEnv])).1
  rw [h]
  decide

/-- C6: a script block whose text fails to parse as JSON is skipped and the
blocks after it are still processed.  The set after `parseHtmlBody` is the
initial set together with the identifiers of all the blocks that do parse,
wherever the failing blocks stand; it is the set obtained from a document
holding the same blocks without the unparseable ones; and the identifier of a
parseable block that comes after a failing block is in it. -/
theorem parse_failure_local (env : Env) (html html' : String) (scripts : List String)
    (s : Pictures)
    (hsel : env.selectScripts html = some scripts)
    (hsel' : env.selectScripts html'
      = some (scripts.filter (fun t => (env.jsonUnmarshal t).isSome))) :
    parseHtmlBody env html s
        = s ∪ ((scripts.filterMap env.jsonUnmarshal).filterMap specPictureId).toFinset
      ∧ parseHtmlBody env html s
        = (scripts.filter (fun t => (env.jsonUnmarshal t).isSome)).foldl (eachScript env) s
      ∧ parseHtmlBody env html s = parseHtmlBody env html' s
      ∧ (∀ (pre post : List String) (bad : String), scripts = pre ++ bad :: post →
          env.jsonUnmarshal bad = none →
          ∀ t ∈ post, ∀ (d : Entry) (id : String), env.jsonUnmarshal t = some d →
            specPictureId d = some id → id ∈ parseHtmlBody env html s) := by
  have hres := parseHtmlBody_spec env html scripts s hsel
  refine ⟨hres, ?_, ?_, ?_⟩
  · rw [hres, foldl_eachScript_spec, filterMap_filter_isSome]
  · rw [hres, parseHtmlBody_spec env html' _ s hsel', filterMap_filter_isSome]
  · intro pre post bad hsplit _ t ht d id hd hidd
    rw [hres]
    apply Finset.mem_union_right
    rw [List.mem_toFinset, List.mem_filterMap]
    refine ⟨d, ?_, hidd⟩
    rw [List.mem_filterMap]
    refine ⟨t, ?_, hd⟩
    rw [hsplit]
    exact List.mem_append_right _ (List.mem_cons_of_mem _ ht)

/-- Witness of C6: a block that is not JSON followed by the sample block; the
identifier of the second block is found, and the result is that of the
document without the first block. -/
theorem parse_failure_local_witness :
    parseHtmlBody sampleEnv "two blocks" ∅ = {"P1"}
      ∧ parseHtmlBody sampleEnv "two blocks" ∅ = parseHtmlBody sampleEnv "one block" ∅
      ∧ "P1" ∈ parseHtmlBody sampleEnv "two blocks" ∅ := by
  have h := parse_failure_local sampleEnv "two blocks" "one block" ["not json", sampleScript] ∅
    (by decide) (by decide)
  refine ⟨?_, h.2.2.1, ?_⟩
  · rw [h.1]; decide
  · exact h.2.2.2 [] [sampleScript] "not json" rfl (by simp [sampleEnv, sampleScript])
      sampleScript (List.mem_singleton.2 rfl)
      [("type", Value.str "PICTURE"), ("picture", Value.obj [("id", Value.str "P1")])] "P1"
      (by simp [sampleEnv]) (by decide)

/-- C8: two records that each hold, under a picture-bearing key, a mapping
with the same string `id` `X` leave a set of size 1 when traversed one after
the other from the empty set, and the list `writeResults` builds from that set
contains `X` exactly once. -/
theorem idempotent_aggregation (env : Env) (X k1 k2 : String) (m1 m2 : Entry)
    (hk1 : IsPictureKey k1) (hk2 : IsPictureKey k2)
    (h1 : index m1 "id" = Value.str X) (h2 : index m2 "id" = Value.str X) :
    (consume env [[(k1, Value.obj m1)], [(k2, Value.obj m2)]] ∅).card = 1
      ∧ ∀ visit, RangeOrder (consume env [[(k1, Value.obj m1)], [(k2, Value.obj m2)]] ∅) visit →
          (writeResults visit).count X = 1 := by
  have hset : consume env [[(k1, Value.obj m1)], [(k2, Value.obj m2)]] ∅ = {X} := by
    simp [consume, traverseEntry_single, traverseField_picture_id env k1 hk1 m1 X h1,
      traverseField_picture_id env k2 hk2 m2 X h2]
  rw [hset]
  refine ⟨Finset.card_singleton X, ?_⟩
  intro visit hv
  rw [writeResults_eq]
  exact List.count_eq_one_of_mem hv.1 ((hv.2 X).2 (Finset.mem_singleton_self X))

/-- Witness of C8 on `{"picture": {"id": "P3"}}` twice. -/
theorem idempotent_aggregation_witness :
    (consume sampleEnv [[("picture", Value.obj [("id", Value.str "P3")])],
      [("picture", Value.obj [("id", Value.str "P3")])]] ∅).card = 1 :=
  (idempotent_aggregation sampleEnv "P3" "picture" "picture" [("id", Value.str "P3")]
    [("id", Value.str "P3")] (Or.inl rfl) (Or.inl rfl) (by simp [index]) (by simp [index])).1

/-- C1 as stated fails: in `{"picture": {"picture": {"id": "X"}}}` the inner
mapping sits under the key `picture`, holds the string `id` `"X"` and is
reached from the root through a mapping-valued field, yet `"X"` is not in the
set after the traversal. -/
theorem completeness_fails_under_picture_key :
    Reaches pictureInPicture "picture" [("id", Value.str "X")]
      ∧ index [("id", Value.str "X")] "id" = Value.str "X"
      ∧ "X" ∉ traverseEntry sampleEnv pictureInPicture ∅ := by
  refine ⟨?_, rfl, by decide⟩
  exact Reaches.step (List.mem_singleton.2 rfl) (Reaches.here (List.mem_singleton.2 rfl))

/-- C1, amended: a mapping that sits under a picture-bearing key, holds a
string `id` and is reached from the root through a chain of mapping-valued
fields none of whose keys is `htmlBody`, `picture`, `lightModeLogo` or
`darkModeLogo`, has its `id` in the set after the traversal, at any depth and
from any initial set. -/
theorem traversal_completeness (env : Env) (root : Entry) (k : String) (m : Entry)
    (id : String) (s : Pictures)
    (hreach : ReachesByDefault root k m) (hk : IsPictureKey k)
    (hid : index m "id" = Value.str id) :
    id ∈ traverseEntry env root s := by
  induction hreach generalizing s with
  | here hmem =>
    apply field_subset_traverseEntry env _ _ _ s hmem
    rw [traverseField_picture_id env _ hk _ id hid]
    exact Finset.mem_insert_self id ∅
  | step hmem hdef _ ih =>
    apply field_subset_traverseEntry env _ _ _ s hmem
    rw [traverseField_default_obj env _ hdef]
    exact ih ∅ hk hid

/-- Witness of C1 on `{"a": {"b": {"lightModeLogo": {"id": "L"}}}}`. -/
theorem traversal_completeness_witness :
    "L" ∈ traverseEntry sampleEnv
      [("a", Value.obj [("b", Value.obj [("lightModeLogo", Value.obj [("id", Value.str "L")])])])] ∅ :=
  traversal_completeness sampleEnv _ "lightModeLogo" [("id", Value.str "L")] "L" ∅
    (ReachesByDefault.step (List.mem_singleton.2 rfl) (by decide)
      (ReachesByDefault.step (List.mem_singleton.2 rfl) (by decide)
        (ReachesByDefault.here (List.mem_singleton.2 rfl))))
    (Or.inr (Or.inl rfl)) rfl

/-- C7: when the source answers the protocol with the pages `pages` (at least
one; every page but the last with a token, the last with none), the scan loop,
given enough fuel, stops after exactly `pages.length` calls of `Scan`, the
first with an absent key and each later one with the key of the previous page,
and has dispatched the items of all pages, each once, in page order. -/
theorem pagination_terminates {σ κ ι ε : Type}
    (scan : σ → Option κ → Except ε (ScanOutput κ ι) × σ) (store : σ)
    (pages : List (ScanOutput κ ι)) (fuel : Nat)
    (hserves : Serves scan store none pages) (hfuel : pages.length ≤ fuel) :
    ∃ st : ScanState κ ι,
      scanLoop scan fuel store none (ScanState.init κ ι) = some (Except.ok st)
        ∧ st.calls.length = pages.length
        ∧ st.calls = none :: pages.dropLast.map (fun p => p.lastEvaluatedKey)
        ∧ st.dispatched = pages.flatMap (fun p => p.items)
        ∧ st.scannedItems = st.dispatched.length := by
  have hne : pages ≠ [] := by
    cases hserves <;> simp
  refine ⟨_, scanLoop_serves scan store none pages hserves fuel _ hfuel, ?_, ?_, ?_, ?_⟩
  · have := List.length_pos_of_ne_nil hne
    simp [ScanState.init]
    omega
  · simp [ScanState.init]
  · simp [ScanState.init]
  · simp [ScanState.init]

/-- Witness of C7: a source that plays back three pages. -/
theorem pagination_terminates_witness :
    ∃ st : ScanState Nat String,
      scanLoop scriptedScan 3 samplePages none (ScanState.init Nat String) = some (Except.ok st)
        ∧ st.calls.length = samplePages.length
        ∧ st.calls = none :: samplePages.dropLast.map (fun p => p.lastEvaluatedKey)
        ∧ st.dispatched = samplePages.flatMap (fun p => p.items)
        ∧ st.scannedItems = st.dispatched.length :=
  pagination_terminates scriptedScan samplePages samplePages 3
    (Serves.more rfl rfl (Serves.more rfl rfl (Serves.last rfl rfl))) (by decide)

/-- C9 fails on the code: on the record `{"htmlBody": sampleHtml}` the
identifier `"P1"` is stored by `parseHtmlBody` while the mutex is not held. -/
theorem html_store_not_guarded :
    unguardedStores false (traverseEntryEvents sampleEnv [("htmlBody", Value.str sampleHtml)])
      = ["P1"] := by
  decide

/-- C10: for a record whose mappings have distinct keys, the set after the
traversal is the same whatever the order in which the entries of each mapping
are listed, and it contains the initial set. -/
theorem order_independent (env : Env) (e e' : Entry) (s : Pictures)
    (hkeys : (Value.obj e).distinctKeys = true)
    (hre : Reorder (Value.obj e) (Value.obj e')) :
    traverseEntry env e s = traverseEntry env e' s ∧ s ⊆ traverseEntry env e s :=
  ⟨sameTraversal_entries env e e' (reorder_sameTraversal env _ _ hre hkeys) s,
    subset_traverseEntry env e s⟩

/-- Witness of C10: `{"a": {"x": 1, "picture": {"id": "X"}}, "picture": {"id": "Y"}}`
with the entries of the root and of `a` listed in the other order. -/
theorem order_independent_witness :
    traverseEntry sampleEnv
        [("a", Value.obj [("x", Value.num 1), ("picture", Value.obj [("id", Value.str "X")])]),
          ("picture", Value.obj [("id", Value.str "Y")])] ∅
      = traverseEntry sampleEnv
        [("picture", Value.obj [("id", Value.str "Y")]),
          ("a", Value.obj [("picture", Value.obj [("id", Value.str "X")]), ("x", Value.num 1)])] ∅ :=
  (order_independent sampleEnv _ _ ∅ (by decide)
    (Reorder.trans
      (Reorder.objCons (Reorder.perm (List.Perm.swap _ _ [])) (Reorder.refl _))
      (Reorder.perm (List.Perm.swap _ _ [])))).1

end GetPicturesId
